import Mathlib

/-!
Verification of the chat-relay program: heartbeat classification and
configuration, transcript pruning, scheduler commands, session-store
loading, message chunking, and the AI-bridge stale-session retry.

Strings from the source are modelled as Lean `String` / `List Char`.
JavaScript truthiness of an optional string is `truthy`.  Results of
fallible external operations (`JSON.parse`, the cron library, the
spawned AI process, the clock/timezone formatter) are modelled as
`Option` values at their interface, as the spec treats them as external
collaborators.
-/

namespace Claw

/-- JavaScript truthiness of an optional string value: `undefined`,
`null` and the empty string are falsy, every other string is truthy. -/
def truthy : Option String → Bool
  | none => false
  | some s => s != ""

/-! ### Heartbeat classification (`isHeartbeatOk`) -/

/-- Membership in the character class of the cleanup regex in the
source (`/[*_`#"'\n\r]/g`): asterisk, underscore, backtick, hash,
double quote, single quote, newline, carriage return. -/
def strippedChar (c : Char) : Bool :=
  c == '*' || c == '_' || c == Char.ofNat 96 || c == '#' ||
  c == '"' || c == Char.ofNat 39 || c == '\n' || c == '\r'

/-- JavaScript `String.prototype.trim` on a character list: drop
whitespace from both ends. -/
def jsTrim (l : List Char) : List Char :=
  ((l.dropWhile Char.isWhitespace).reverse.dropWhile Char.isWhitespace).reverse

/-- Function `isHeartbeatOk` from the heartbeat module: a response longer than
300 characters is never the sentinel; otherwise the response with the
markdown/quote/newline characters removed and then trimmed must equal
`HEARTBEAT_OK` exactly. -/
def isHeartbeatOk (response : String) : Bool :=
  if response.length > 300 then false
  else jsTrim (response.data.filter (fun c => !strippedChar c)) == "HEARTBEAT_OK".data

/-! ### Heartbeat configuration (`parseHeartbeatConfig`) -/

/-- Digits of a decimal numeral to a natural number; `none` when the
list is empty or contains a non-digit. -/
def digitsToNat (l : List Char) : Option Nat :=
  if l = [] then none
  else l.foldl (fun acc c => acc.bind (fun n =>
    if c.isDigit then some (n * 10 + (c.toNat - 48)) else none)) (some 0)

/-- Model of the JavaScript `Number` conversion at its interface, on
the integral strings the configuration uses: trim, empty string is `0`,
optional sign followed by decimal digits is the signed value, anything
else is `NaN` (`none`). -/
def jsNumber (l : List Char) : Option Int :=
  let t := jsTrim l
  if t = [] then some 0
  else
    match t with
    | '-' :: ds => (digitsToNat ds).map (fun n => -(n : Int))
    | '+' :: ds => (digitsToNat ds).map (fun n => (n : Int))
    | ds => (digitsToNat ds).map (fun n => (n : Int))

/-- Evaluation of `Number(x) || d` on an optional string: an absent value
(`Number(undefined)` is `NaN`), a non-numeric value (`NaN`) or the
value `0` all fall back to the default. -/
def numOr (v : Option (List Char)) (d : Int) : Int :=
  match v with
  | none => d
  | some s =>
    match jsNumber s with
    | none => d
    | some n => if n = 0 then d else n

/-- JavaScript `String.prototype.split` with a single-character
separator, on character lists. -/
def splitChar (sep : Char) : List Char → List (List Char)
  | [] => [[]]
  | c :: rest =>
    let r := splitChar sep rest
    if c = sep then [] :: r
    else
      match r with
      | [] => [[c]]
      | h :: t => (c :: h) :: t

/-- Evaluation of `process.env.X || d`: absent or empty environment value falls back
to the default string. -/
def envOr (v : Option String) (d : String) : String :=
  match v with
  | none => d
  | some s => if s = "" then d else s

structure HeartbeatConfig where
  spaceName : String
  intervalMs : Int
  activeStart : Int
  activeEnd : Int
  timezone : String
  deriving DecidableEq, Repr

/-- Function `parseHeartbeatConfig` from the heartbeat module, with the four
environment variables (`HEARTBEAT_SPACE`, `HEARTBEAT_INTERVAL_MINUTES`,
`HEARTBEAT_ACTIVE_HOURS`, `HEARTBEAT_TIMEZONE`) passed in as optional
strings. -/
def parseHeartbeatConfig (space interval hours tz : Option String) :
    Option HeartbeatConfig :=
  match space with
  | none => none
  | some nm =>
    if nm = "" then none
    else
      some {
        spaceName := nm
        intervalMs := numOr (interval.map String.toList) 30 * 60 * 1000
        activeStart := numOr ((splitChar '-' (envOr hours "7-23").toList).get? 0) 0
        activeEnd := numOr ((splitChar '-' (envOr hours "7-23").toList).get? 1) 23
        timezone := envOr tz "America/Denver" }

/-! ### Heartbeat active-hour window -/

/-- Function `isWithinActiveHours` from the heartbeat module.  The source
computes the current hour from the clock and an IANA timezone through
`Intl.DateTimeFormat`; that external computation is passed in as the
`hour` parameter, universally quantified in the theorems. -/
def isWithinActiveHours (start endHour hour : Int) : Bool :=
  decide (hour ≥ start) && decide (hour < endHour)

/-! ## Claim C2: heartbeat sentinel classification -/

/-- Claim C2: `isHeartbeatOk` returns `true` iff the raw response has
at most 300 characters and deleting every occurrence of the characters
`* _ ` # " '` and newline / carriage return, then trimming, leaves
exactly `HEARTBEAT_OK`; in particular a response of length at least 313
(the 12-character sentinel plus 301 extra characters) is never
classified as the sentinel. -/
theorem C2_isHeartbeatOk_spec (response : String) :
    (isHeartbeatOk response = true ↔
      (response.length ≤ 300 ∧
        jsTrim (response.data.filter (fun c => !strippedChar c)) =
          "HEARTBEAT_OK".data)) ∧
    (313 ≤ response.length → isHeartbeatOk response = false) := by
  constructor
  · unfold isHeartbeatOk
    by_cases h : response.length > 300
    · rw [if_pos h]
      constructor
      · intro ht
        exact absurd ht (by simp)
      · intro hc
        exact absurd hc.1 (by omega)
    · rw [if_neg h, beq_iff_eq]
      constructor
      · intro he
        exact ⟨by omega, he⟩
      · intro he
        exact he.2
  · intro h
    unfold isHeartbeatOk
    rw [if_pos (by omega)]

/-- Witness for C2 at a concrete response of 313 characters. -/
theorem C2_isHeartbeatOk_witness :
    isHeartbeatOk (String.mk (List.replicate 313 'a')) = false :=
  (C2_isHeartbeatOk_spec (String.mk (List.replicate 313 'a'))).2
    (by
      show (313 : Nat) ≤ (List.replicate 313 'a').length
      rw [List.length_replicate])

/-! ## Claim C10: no wrap-around active window -/

/-- Claim C10: whenever `activeStart ≥ activeEnd`, the active-hour
window check is `false` for every current hour (hence for every
timezone and clock reading), so an overnight window never fires. -/
theorem C10_isWithinActiveHours_no_wrap (start endHour hour : Int)
    (h : endHour ≤ start) : isWithinActiveHours start endHour hour = false := by
  unfold isWithinActiveHours
  simp only [Bool.and_eq_false_iff, decide_eq_false_iff_not, not_lt, ge_iff_le, not_le]
  omega

/-- Witness for C10: the overnight window 22–6 is inactive at hour 23. -/
theorem C10_isWithinActiveHours_witness :
    isWithinActiveHours 22 6 23 = false :=
  C10_isWithinActiveHours_no_wrap 22 6 23 (by decide)

/-! ## Claim C9: zero-value fallbacks in the heartbeat configuration -/

/-- Auxiliary: splitting `s ++ "-0"` at `-` when `s` itself contains no
`-` yields exactly `[s, "0"]`. -/
theorem splitChar_append_dash_zero (s : List Char) (hs : '-' ∉ s) :
    splitChar '-' (s ++ ['-', '0']) = [s, ['0']] := by
  induction s with
  | nil => rfl
  | cons c cs ih =>
    have hc : c ≠ '-' := fun h => hs (h ▸ List.mem_cons_self c cs)
    have hcs : '-' ∉ cs := fun h => hs (List.mem_cons_of_mem c h)
    have step : splitChar '-' ((c :: cs) ++ ['-', '0']) =
        if c = '-' then [] :: splitChar '-' (cs ++ ['-', '0'])
        else
          match splitChar '-' (cs ++ ['-', '0']) with
          | [] => [[c]]
          | h :: t => (c :: h) :: t := rfl
    rw [step, if_neg hc, ih hcs]

/-- Claim C9: with `HEARTBEAT_SPACE` set (non-empty), an active-hours
string of the form `<s>-0` (no dash in `<s>`) yields `activeEnd = 23`
rather than `0`, and `HEARTBEAT_INTERVAL_MINUTES` equal to `"0"` or any
non-numeric string yields the 30-minute default interval. -/
theorem C9_parseHeartbeatConfig_zero_fallback
    (nm : String) (hnm : nm ≠ "") (s : List Char) (hs : '-' ∉ s)
    (iv : String) (hiv : jsNumber iv.toList = some 0 ∨ jsNumber iv.toList = none)
    (tz : Option String) :
    ∃ cfg, parseHeartbeatConfig (some nm) (some iv)
        (some (String.mk (s ++ ['-', '0']))) tz = some cfg ∧
      cfg.activeEnd = 23 ∧ cfg.intervalMs = 30 * 60 * 1000 := by
  have hne : String.mk (s ++ ['-', '0']) ≠ "" := by
    intro h
    have hd : s ++ ['-', '0'] = [] := congrArg String.data h
    simp at hd
  have henv : envOr (some (String.mk (s ++ ['-', '0']))) "7-23" =
      String.mk (s ++ ['-', '0']) := by
    simp only [envOr, if_neg hne]
  have hend : numOr (some ['0']) 23 = 23 := by decide
  have hint : numOr ((some iv).map String.toList) 30 = 30 := by
    have hiv' : jsNumber iv.data = some 0 ∨ jsNumber iv.data = none := hiv
    rcases hiv' with h | h <;> simp [numOr, h]
  simp only [parseHeartbeatConfig, if_neg hnm]
  refine ⟨_, rfl, ?_, ?_⟩
  · show numOr ((splitChar '-'
        (envOr (some (String.mk (s ++ ['-', '0']))) "7-23").toList).get? 1) 23 = 23
    rw [henv]
    show numOr ((splitChar '-' (s ++ ['-', '0'])).get? 1) 23 = 23
    rw [splitChar_append_dash_zero s hs]
    exact hend
  · show numOr ((some iv).map String.toList) 30 * 60 * 1000 = 30 * 60 * 1000
    rw [hint]

/-- Witness for C9 with space `hb`, hours `7-0`, interval `0`. -/
theorem C9_parseHeartbeatConfig_witness :
    ∃ cfg, parseHeartbeatConfig (some "hb") (some "0")
        (some (String.mk (['7'] ++ ['-', '0']))) none = some cfg ∧
      cfg.activeEnd = 23 ∧ cfg.intervalMs = 30 * 60 * 1000 :=
  C9_parseHeartbeatConfig_zero_fallback "hb" (by decide) ['7'] (by decide)
    "0" (Or.inl (by decide)) none

/-! ### Transcript entries and the heartbeat pruner
(`pruneHeartbeatFromTranscript`) -/

/-- A parsed transcript entry: the tagged type, the unique id, and the
optional parent reference forming the causal chain. -/
structure Entry where
  type : String
  uuid : String
  parentUuid : Option String
  deriving DecidableEq, Repr

/-- Index of the most recent entry with the given type, as found by the
backward scan of the source; `none` when no entry has that type. -/
def lastIdxOfType : List Entry → String → Option Nat
  | [], _ => none
  | e :: rest, t =>
    match lastIdxOfType rest t with
    | some i => some (i + 1)
    | none => if e.type = t then some 0 else none

/-- The filtered sequence of the pruner: drop the entries at absolute
indices `u` and `a` and every `file-history-snapshot` entry at or after
index `rf`; the parameter `i` is the absolute index of the head. -/
def keepAux (u a rf : Nat) : Nat → List Entry → List Entry
  | _, [] => []
  | i, e :: rest =>
    if i = u ∨ i = a ∨ (rf ≤ i ∧ e.type = "file-history-snapshot") then
      keepAux u a rf (i + 1) rest
    else
      e :: keepAux u a rf (i + 1) rest

/-- Number of entries the pruner removes in the suffix whose head has
absolute index `i`. -/
def remCnt (u a rf : Nat) : Nat → List Entry → Nat
  | _, [] => 0
  | i, e :: rest =>
    (if i = u ∨ i = a ∨ (rf ≤ i ∧ e.type = "file-history-snapshot") then 1 else 0)
      + remCnt u a rf (i + 1) rest

/-- Number of entries at absolute index `m` in the suffix whose head has
absolute index `i` (zero or one). -/
def idxCnt (m : Nat) : Nat → List Entry → Nat
  | _, [] => 0
  | i, _ :: rest => (if i = m then 1 else 0) + idxCnt m (i + 1) rest

/-- Number of `file-history-snapshot` entries at or after absolute index
`rf` in the suffix whose head has absolute index `i`. -/
def snapCntFrom (rf : Nat) : Nat → List Entry → Nat
  | _, [] => 0
  | i, e :: rest =>
    (if rf ≤ i ∧ e.type = "file-history-snapshot" then 1 else 0)
      + snapCntFrom rf (i + 1) rest

/-- The parent-reference repair walk of the source: an entry whose
parent reference is truthy and differs from the previous entry's id is
rewritten to point at it; a falsy (absent, null or empty) parent
reference is left untouched. -/
def fixChainAux (prev : Entry) : List Entry → List Entry
  | [] => []
  | e :: rest =>
    if truthy e.parentUuid = true ∧ e.parentUuid ≠ some prev.uuid then
      { e with parentUuid := some prev.uuid } ::
        fixChainAux { e with parentUuid := some prev.uuid } rest
    else
      e :: fixChainAux e rest

/-- The repair walk starts at index 1; the first entry is never
rewritten. -/
def fixChain : List Entry → List Entry
  | [] => []
  | e :: rest => e :: fixChainAux e rest

/-- The pure core of `pruneHeartbeatFromTranscript` on an
already-parsed transcript: find the most recent user and assistant
entries, remove them together with the trailing snapshots, and repair
the chain.  `none` means the source returns without writing. -/
def pruneParsed (entries : List Entry) : Option (List Entry) :=
  match lastIdxOfType entries "user", lastIdxOfType entries "assistant" with
  | some u, some a => some (fixChain (keepAux u a (min u a) 0 entries))
  | _, _ => none

/-- A raw transcript line after `JSON.parse`: the fields the pruner
inspects, each possibly absent.  A whole line that fails `JSON.parse`
is modelled as `none` at the call site. -/
structure RawEntry where
  type : Option String
  uuid : Option String
  parentUuid : Option String
  deriving DecidableEq, Repr

/-- One step of the parse loop: an unparseable line or an entry with a
falsy `type` or `uuid` makes the whole prune bail out. -/
def parseLine : Option RawEntry → Option Entry
  | none => none
  | some r =>
    if truthy r.type = true ∧ truthy r.uuid = true then
      some ⟨r.type.getD "", r.uuid.getD "", r.parentUuid⟩
    else none

/-- The parse loop over all lines: `none` as soon as any line is
rejected. -/
def parseAll : List (Option RawEntry) → Option (List Entry)
  | [] => some []
  | x :: rest =>
    match parseLine x with
    | none => none
    | some e => (parseAll rest).map (fun es => e :: es)

/-- Function `pruneHeartbeatFromTranscript` on the line-parsed log: fewer than
two non-empty lines, any unparseable line, or a missing user/assistant
entry leaves the log unwritten (`none`); otherwise the rewritten
entry list is written. -/
def pruneTranscript (log : List (Option RawEntry)) : Option (List Entry) :=
  if log.length < 2 then none
  else
    match parseAll log with
    | none => none
    | some entries => pruneParsed entries

/-- The repaired-chain property the source actually establishes: every
entry after the first whose parent reference is truthy points at the id
of the entry immediately before it. -/
def chainOk : Entry → List Entry → Prop
  | _, [] => True
  | prev, e :: rest =>
    (truthy e.parentUuid = true → e.parentUuid = some prev.uuid) ∧ chainOk e rest

/-- The chain property as the claim states it: every entry after the
first points at the id of the entry immediately before it,
unconditionally. -/
def chainStrict : Entry → List Entry → Prop
  | _, [] => True
  | prev, e :: rest => e.parentUuid = some prev.uuid ∧ chainStrict e rest

/-- Property `chainOk` for a whole list (vacuous when empty). -/
def chainRepaired : List Entry → Prop
  | [] => True
  | f :: r => chainOk f r

/-! ### Pruner lemmas -/

theorem keepAux_length_add (u a rf : Nat) :
    ∀ (es : List Entry) (i : Nat),
      (keepAux u a rf i es).length + remCnt u a rf i es = es.length := by
  intro es
  induction es with
  | nil => intro i; rfl
  | cons e rest ih =>
    intro i
    rw [keepAux, remCnt]
    by_cases h : i = u ∨ i = a ∨ (rf ≤ i ∧ e.type = "file-history-snapshot")
    · rw [if_pos h, if_pos h]
      have := ih (i + 1)
      simp only [List.length_cons]
      omega
    · rw [if_neg h, if_neg h]
      have := ih (i + 1)
      simp only [List.length_cons]
      omega

theorem idxCnt_lt (m : Nat) :
    ∀ (es : List Entry) (i : Nat), m < i → idxCnt m i es = 0 := by
  intro es
  induction es with
  | nil => intro i _; rfl
  | cons e rest ih =>
    intro i h
    rw [idxCnt, if_neg (by omega), ih (i + 1) (by omega)]

theorem idxCnt_in (m : Nat) :
    ∀ (es : List Entry) (i : Nat), i ≤ m → m < i + es.length →
      idxCnt m i es = 1 := by
  intro es
  induction es with
  | nil => intro i h1 h2; simp only [List.length_nil] at h2; omega
  | cons e rest ih =>
    intro i h1 h2
    rw [idxCnt]
    by_cases h : i = m
    · rw [if_pos h, idxCnt_lt m rest (i + 1) (by omega)]
    · rw [if_neg h]
      have := ih (i + 1) (by omega) (by simp only [List.length_cons] at h2; omega)
      omega

theorem remCnt_split (u a rf : Nat) (hua : u ≠ a) :
    ∀ (es : List Entry) (i : Nat),
      (∀ e', es.get? (u - i) = some e' → i ≤ u → e'.type = "user") →
      (∀ e', es.get? (a - i) = some e' → i ≤ a → e'.type = "assistant") →
      remCnt u a rf i es = idxCnt u i es + idxCnt a i es + snapCntFrom rf i es := by
  intro es
  induction es with
  | nil => intro i _ _; rfl
  | cons e rest ih =>
    intro i hu ha
    have hu' : ∀ e', rest.get? (u - (i + 1)) = some e' → i + 1 ≤ u →
        e'.type = "user" := by
      intro e' hg hle
      apply hu e' ?_ (by omega)
      have hsub : u - i = (u - (i + 1)) + 1 := by omega
      rw [hsub, List.get?_cons_succ]
      exact hg
    have ha' : ∀ e', rest.get? (a - (i + 1)) = some e' → i + 1 ≤ a →
        e'.type = "assistant" := by
      intro e' hg hle
      apply ha e' ?_ (by omega)
      have hsub : a - i = (a - (i + 1)) + 1 := by omega
      rw [hsub, List.get?_cons_succ]
      exact hg
    have irec := ih (i + 1) hu' ha'
    rw [remCnt, idxCnt, idxCnt, snapCntFrom, irec]
    by_cases hiu : i = u
    · have htype : e.type = "user" := by
        apply hu e ?_ (by omega)
        rw [hiu, Nat.sub_self]
        rfl
      have hsnap : ¬(rf ≤ i ∧ e.type = "file-history-snapshot") := by
        intro hc
        rw [htype] at hc
        exact absurd hc.2 (by decide)
      rw [if_pos (Or.inl hiu), if_pos hiu, if_neg (by omega : ¬ i = a),
        if_neg hsnap]
      omega
    · by_cases hia : i = a
      · have htype : e.type = "assistant" := by
          apply ha e ?_ (by omega)
          rw [hia, Nat.sub_self]
          rfl
        have hsnap : ¬(rf ≤ i ∧ e.type = "file-history-snapshot") := by
          intro hc
          rw [htype] at hc
          exact absurd hc.2 (by decide)
        rw [if_pos (Or.inr (Or.inl hia)), if_neg hiu, if_pos hia, if_neg hsnap]
        omega
      · have hcond : (i = u ∨ i = a ∨ (rf ≤ i ∧ e.type = "file-history-snapshot"))
            ↔ (rf ≤ i ∧ e.type = "file-history-snapshot") := by
          constructor
          · intro h
            rcases h with h | h | h
            · exact absurd h hiu
            · exact absurd h hia
            · exact h
          · intro h
            exact Or.inr (Or.inr h)
        rw [if_congr hcond rfl rfl, if_neg hiu, if_neg hia]
        omega

theorem lastIdxOfType_spec :
    ∀ (es : List Entry) (t : String) (u : Nat),
      lastIdxOfType es t = some u →
      u < es.length ∧ ∃ e, es.get? u = some e ∧ e.type = t := by
  intro es
  induction es with
  | nil =>
    intro t u h
    exact absurd h (by rw [lastIdxOfType]; exact Option.noConfusion)
  | cons e rest ih =>
    intro t u h
    rw [lastIdxOfType] at h
    cases hr : lastIdxOfType rest t with
    | some i =>
      rw [hr] at h
      injection h with h
      obtain ⟨hlt, e', hg, ht⟩ := ih t i hr
      subst h
      refine ⟨by simp only [List.length_cons]; omega, e', ?_, ht⟩
      rw [List.get?_cons_succ]
      exact hg
    | none =>
      rw [hr] at h
      by_cases he : e.type = t
      · rw [if_pos he] at h
        injection h with h
        subst h
        exact ⟨by simp, e, rfl, he⟩
      · rw [if_neg he] at h
        exact absurd h Option.noConfusion

theorem fixChainAux_length :
    ∀ (l : List Entry) (prev : Entry), (fixChainAux prev l).length = l.length := by
  intro l
  induction l with
  | nil => intro prev; rfl
  | cons e rest ih =>
    intro prev
    rw [fixChainAux]
    split
    · simp only [List.length_cons, ih]
    · simp only [List.length_cons, ih]

theorem fixChain_length (l : List Entry) : (fixChain l).length = l.length := by
  cases l with
  | nil => rfl
  | cons e rest => simp only [fixChain, List.length_cons, fixChainAux_length]

theorem fixChainAux_map_uuid :
    ∀ (l : List Entry) (prev : Entry),
      (fixChainAux prev l).map Entry.uuid = l.map Entry.uuid := by
  intro l
  induction l with
  | nil => intro prev; rfl
  | cons e rest ih =>
    intro prev
    rw [fixChainAux]
    split
    · simp only [List.map_cons, ih]
    · simp only [List.map_cons, ih]

theorem fixChain_map_uuid (l : List Entry) :
    (fixChain l).map Entry.uuid = l.map Entry.uuid := by
  cases l with
  | nil => rfl
  | cons e rest => simp only [fixChain, List.map_cons, fixChainAux_map_uuid]

theorem fixChainAux_chainOk :
    ∀ (l : List Entry) (prev : Entry), chainOk prev (fixChainAux prev l) := by
  intro l
  induction l with
  | nil => intro prev; trivial
  | cons e rest ih =>
    intro prev
    rw [fixChainAux]
    by_cases h : truthy e.parentUuid = true ∧ e.parentUuid ≠ some prev.uuid
    · rw [if_pos h]
      exact ⟨fun _ => rfl, ih _⟩
    · rw [if_neg h]
      refine ⟨?_, ih e⟩
      intro ht
      by_contra hne
      exact h ⟨ht, hne⟩

theorem chainRepaired_fixChain (l : List Entry) : chainRepaired (fixChain l) := by
  cases l with
  | nil => trivial
  | cons e rest => exact fixChainAux_chainOk rest e

theorem keepAux_sublist (u a rf : Nat) :
    ∀ (es : List Entry) (i : Nat), (keepAux u a rf i es).Sublist es := by
  intro es
  induction es with
  | nil => intro i; exact List.Sublist.refl _
  | cons e rest ih =>
    intro i
    rw [keepAux]
    split
    · exact List.Sublist.cons e (ih (i + 1))
    · exact List.Sublist.cons₂ e (ih (i + 1))

theorem parseAll_eq_none :
    ∀ (log : List (Option RawEntry)),
      (∃ x ∈ log, parseLine x = none) → parseAll log = none := by
  intro log
  induction log with
  | nil =>
    intro h
    obtain ⟨x, hx, _⟩ := h
    exact absurd hx (List.not_mem_nil x)
  | cons y rest ih =>
    intro h
    obtain ⟨x, hx, hpx⟩ := h
    rw [parseAll]
    rcases List.mem_cons.mp hx with hx | hx
    · rw [← hx, hpx]
    · cases hpy : parseLine y with
      | none => rfl
      | some e => rw [ih ⟨x, hx, hpx⟩]; rfl

/-! ## Claim C1: transcript pruning (corrected) -/

/-- Claim C1 as amended: when the most recent user entry sits at index
`u`, the most recent assistant entry at index `a`, `u < a`, and `k`
snapshot entries lie at or after index `u`, the pruner writes exactly
`N - 2 - k` entries in the original relative order; every remaining
entry after the first whose parent reference is truthy points at the id
of the entry immediately preceding it (a falsy parent reference is left
untouched, which is what the counterexample exhibits against the
original claim). -/
theorem C1_pruneParsed_amended (entries : List Entry) (u a : Nat)
    (hu : lastIdxOfType entries "user" = some u)
    (ha : lastIdxOfType entries "assistant" = some a)
    (hlt : u < a) :
    ∃ out, pruneParsed entries = some out ∧
      out.length = entries.length - 2 - snapCntFrom u 0 entries ∧
      (out.map Entry.uuid).Sublist (entries.map Entry.uuid) ∧
      chainRepaired out := by
  have hmin : min u a = u := Nat.min_eq_left (Nat.le_of_lt hlt)
  refine ⟨fixChain (keepAux u a (min u a) 0 entries), ?_, ?_, ?_, ?_⟩
  · rw [pruneParsed, hu, ha]
  · obtain ⟨hul, eu, hgu, htu⟩ := lastIdxOfType_spec entries "user" u hu
    obtain ⟨hal, ea, hga, hta⟩ := lastIdxOfType_spec entries "assistant" a ha
    have hsplit := remCnt_split u a (min u a) (by omega) entries 0
      (by
        intro e' hg _
        rw [Nat.sub_zero] at hg
        rw [hgu] at hg
        injection hg with hg
        exact hg ▸ htu)
      (by
        intro e' hg _
        rw [Nat.sub_zero] at hg
        rw [hga] at hg
        injection hg with hg
        exact hg ▸ hta)
    have hlen := keepAux_length_add u a (min u a) entries 0
    have hixu : idxCnt u 0 entries = 1 := idxCnt_in u entries 0 (by omega) (by omega)
    have hixa : idxCnt a 0 entries = 1 := idxCnt_in a entries 0 (by omega) (by omega)
    rw [fixChain_length, hmin] at *
    omega
  · rw [fixChain_map_uuid]
    exact List.Sublist.map Entry.uuid (keepAux_sublist u a (min u a) entries 0)
  · exact chainRepaired_fixChain _

/-- Concrete transcript on which the original claim C1 fails: the
second remaining entry has a null parent reference, which the repair
walk leaves untouched, so it does not point at the entry before it. -/
def exC1 : List Entry :=
  [⟨"summary", "0", none⟩, ⟨"summary", "1", none⟩,
    ⟨"user", "2", some "1"⟩, ⟨"assistant", "3", some "2"⟩]

/-- Counterexample to claim C1 as stated: in `exC1` the most recent
user entry is at index 2, the most recent assistant entry at index 3,
no snapshot entries occur, and the pruned output has the right length
`4 - 2 - 0 = 2`, but its second entry keeps its null parent reference
instead of the id of the first entry. -/
theorem C1_counterexample :
    lastIdxOfType exC1 "user" = some 2 ∧
    lastIdxOfType exC1 "assistant" = some 3 ∧
    (2 : Nat) < 3 ∧
    snapCntFrom 2 0 exC1 = 0 ∧
    pruneParsed exC1 = some [⟨"summary", "0", none⟩, ⟨"summary", "1", none⟩] ∧
    ¬ chainStrict ⟨"summary", "0", none⟩ [⟨"summary", "1", none⟩] := by
  refine ⟨by decide, by decide, by decide, by decide, by decide, ?_⟩
  intro h
  exact Option.noConfusion h.1

/-- Concrete transcript for the amended claim: five entries, user at
index 1, assistant at index 3, one snapshot at index 2, so the pruned
output has `5 - 2 - 1 = 2` entries. -/
def exC1w : List Entry :=
  [⟨"summary", "0", none⟩, ⟨"user", "1", some "0"⟩,
    ⟨"file-history-snapshot", "2", some "1"⟩,
    ⟨"assistant", "3", some "2"⟩, ⟨"summary", "4", some "3"⟩]

/-- Witness for the amended claim C1 at `exC1w`. -/
theorem C1_pruneParsed_witness :
    ∃ out, pruneParsed exC1w = some out ∧
      out.length = exC1w.length - 2 - snapCntFrom 1 0 exC1w ∧
      (out.map Entry.uuid).Sublist (exC1w.map Entry.uuid) ∧
      chainRepaired out :=
  C1_pruneParsed_amended exC1w 1 3 (by decide) (by decide) (by decide)

/-! ## Claim C6: fail-closed pruning -/

/-- Claim C6: a transcript log containing an unparseable line, or a
parsed line whose `type` or `uuid` field is missing (falsy), is never
written: the whole prune is aborted. -/
theorem C6_pruneTranscript_fail_closed (log : List (Option RawEntry))
    (h : (∃ x ∈ log, x = none) ∨
      ∃ r, some r ∈ log ∧ ¬(truthy r.type = true ∧ truthy r.uuid = true)) :
    pruneTranscript log = none := by
  have hbad : ∃ x ∈ log, parseLine x = none := by
    rcases h with ⟨x, hx, hxn⟩ | ⟨r, hr, hrb⟩
    · exact ⟨x, hx, by rw [hxn]; rfl⟩
    · exact ⟨some r, hr, by rw [parseLine, if_neg hrb]⟩
  unfold pruneTranscript
  by_cases hl : log.length < 2
  · rw [if_pos hl]
  · rw [if_neg hl, parseAll_eq_none log hbad]

/-- Witness for C6: a three-line log whose middle line fails to parse
is left unwritten. -/
theorem C6_pruneTranscript_witness :
    pruneTranscript [some ⟨some "user", some "u1", none⟩, none,
      some ⟨some "assistant", some "a1", some "u1"⟩] = none :=
  C6_pruneTranscript_fail_closed _ (Or.inl ⟨none, by decide, rfl⟩)

/-! ### Session store and schedule store loading (`sessions.ts`,
`scheduler.ts`) -/

/-- A stored scheduled job (`Schedule` in the source). -/
structure Schedule where
  id : Nat
  cron : String
  prompt : String
  spaceName : String
  enabled : Bool
  nextRun : String
  deriving DecidableEq, Repr

/-- Function `readSchedules` from the scheduler: the stored file content after
`JSON.parse` is passed in, `none` when the file is missing or its
content is malformed (`JSON.parse` throws); the catch-all of the source
returns the empty list. -/
def readSchedules (stored : Option (List Schedule)) : List Schedule :=
  match stored with
  | some s => s
  | none => []

/-- Function `loadSessions` from the session store: with the sessions file
present, malformed content (`JSON.parse` throws, modelled as `none`)
propagates as an exception, which `main().catch` turns into
`process.exit(1)`; with the file absent an empty store is created. -/
def loadSessions (fileExists : Bool)
    (stored : Option (List (String × String))) :
    Except String (List (String × String)) :=
  if fileExists then
    match stored with
    | some m => Except.ok m
    | none => Except.error "SyntaxError: malformed sessions store"
  else
    Except.ok []

/-! ### Schedule command interpreter (`handleScheduleCommand`) -/

/-- The three recognized command shapes plus the fall-through usage
branch; the regex dispatch of the source is abstracted into this
classification. -/
inductive ScheduleCmd where
  | list
  | unschedule (id : Nat)
  | create (cron : String) (prompt : String)
  | other
  deriving DecidableEq, Repr

/-- One line of the `/schedules` listing. -/
def formatScheduleLine (s : Schedule) : String :=
  "*#" ++ toString s.id ++ "* — `" ++ s.cron ++ "` — " ++ s.prompt ++
    "\n  Next: " ++ s.nextRun

/-- Largest stored id (0 when the store is empty). -/
def maxId (l : List Schedule) : Nat :=
  (l.map Schedule.id).foldr max 0

/-- Function `handleScheduleCommand` from the scheduler.  The external cron
library (`CronExpressionParser.parse(cron, tz UTC).next()`) is passed
in as `cronNext`, returning `none` when the expression is invalid
(`parse` throws) and the next UTC occurrence otherwise. -/
def handleScheduleCommand (cronNext : String → Option String)
    (cmd : ScheduleCmd) (spaceName : String) (schedules : List Schedule) :
    String × List Schedule :=
  match cmd with
  | .list =>
    let active := schedules.filter (fun s => s.spaceName == spaceName && s.enabled)
    if active.isEmpty then ("No active schedules for this space.", schedules)
    else (String.intercalate "\n\n" (active.map formatScheduleLine), schedules)
  | .unschedule id =>
    match schedules.findIdx? (fun s => s.id == id && s.spaceName == spaceName) with
    | none => ("Schedule #" ++ toString id ++ " not found in this space.", schedules)
    | some idx =>
      ("Schedule #" ++ toString id ++ " deleted.", schedules.eraseIdx idx)
  | .create cron prompt =>
    match cronNext cron with
    | none => ("Invalid cron expression: `" ++ cron ++ "`", schedules)
    | some nr =>
      let nextId := schedules.foldl (fun m s => max m (s.id + 1)) 1
      ("Schedule #" ++ toString nextId ++ " created.\nCron: `" ++ cron ++
          "`\nPrompt: " ++ prompt ++ "\nNext run: " ++ nr,
        schedules ++ [⟨nextId, cron, prompt, spaceName, true, nr⟩])
  | .other =>
    ("Usage: `/schedule \"<cron>\" <prompt>` or `/schedules` or `/unschedule <id>`",
      schedules)

/-! ### Scheduler lemmas -/

theorem foldl_nextId :
    ∀ (l : List Schedule) (b : Nat),
      l.foldl (fun m s => max m (s.id + 1)) b =
        max b ((l.map (fun s => s.id + 1)).foldr max 0) := by
  intro l
  induction l with
  | nil => intro b; simp
  | cons s rest ih =>
    intro b
    simp only [List.foldl_cons, List.map_cons, List.foldr_cons, ih (max b (s.id + 1))]
    omega

theorem max_one_foldr :
    ∀ l : List Schedule,
      max 1 ((l.map (fun s => s.id + 1)).foldr max 0) = maxId l + 1 := by
  intro l
  induction l with
  | nil => simp [maxId]
  | cons s rest ih =>
    simp only [List.map_cons, List.foldr_cons, maxId] at *
    omega

theorem nextId_eq (l : List Schedule) :
    l.foldl (fun m s => max m (s.id + 1)) 1 = maxId l + 1 := by
  rw [foldl_nextId l 1, max_one_foldr l]

theorem id_le_maxId : ∀ (l : List Schedule), ∀ s ∈ l, s.id ≤ maxId l := by
  intro l
  induction l with
  | nil => intro s hs; exact absurd hs (List.not_mem_nil s)
  | cons x rest ih =>
    intro s hs
    rcases List.mem_cons.mp hs with h | h
    · subst h
      simp only [maxId, List.map_cons, List.foldr_cons]
      omega
    · have := ih s h
      simp only [maxId, List.map_cons, List.foldr_cons] at *
      omega

theorem findIdx?_some_split {p : Schedule → Bool} :
    ∀ (l : List Schedule) (idx : Nat), l.findIdx? p = some idx →
      ∃ pre s post, l = pre ++ s :: post ∧ pre.length = idx ∧ p s = true ∧
        (∀ y ∈ pre, ¬ p y = true) ∧ l.eraseIdx idx = pre ++ post := by
  intro l
  induction l with
  | nil => intro idx h; exact absurd h (by simp)
  | cons x xs ih =>
    intro idx h
    rw [List.findIdx?_cons] at h
    by_cases hx : p x
    · rw [if_pos hx] at h
      injection h with h
      subst h
      exact ⟨[], x, xs, rfl, rfl, hx, by simp, rfl⟩
    · rw [if_neg hx, List.findIdx?_succ] at h
      cases hfs : xs.findIdx? p with
      | none => rw [hfs] at h; exact absurd h (by simp)
      | some j =>
        rw [hfs] at h
        simp only [Option.map_some'] at h
        injection h with h
        obtain ⟨pre, s, post, hsplit, hlenp, hps, hpre, herase⟩ := ih j hfs
        refine ⟨x :: pre, s, post, by rw [hsplit, List.cons_append],
          by simp only [List.length_cons, hlenp]; exact h, hps, ?_, ?_⟩
        · intro y hy
          rcases List.mem_cons.mp hy with hy | hy
          · subst hy; exact hx
          · exact hpre y hy
        · rw [← h, List.eraseIdx_cons_succ, herase, List.cons_append]

theorem findIdx?_append_singleton {p : Schedule → Bool} :
    ∀ (l : List Schedule) (x : Schedule), (∀ y ∈ l, ¬ p y = true) → p x = true →
      (l ++ [x]).findIdx? p = some l.length := by
  intro l
  induction l with
  | nil => intro x _ hx; simp [List.findIdx?_cons, hx]
  | cons z zs ih =>
    intro x hl hx
    have hz : ¬ p z = true := hl z (List.mem_cons_self z zs)
    rw [List.cons_append, List.findIdx?_cons, if_neg hz, List.findIdx?_succ,
      ih x (fun y hy => hl y (List.mem_cons_of_mem z hy)) hx]
    simp

theorem eraseIdx_append_singleton :
    ∀ (l : List Schedule) (x : Schedule), (l ++ [x]).eraseIdx l.length = l := by
  intro l
  induction l with
  | nil => intro x; rfl
  | cons z zs ih =>
    intro x
    rw [List.cons_append, List.length_cons, List.eraseIdx_cons_succ, ih x]

/-! ## Claim C3: malformed persisted stores at startup (corrected) -/

/-- Counterexample to claim C3 as stated: a malformed schedule store
(`JSON.parse` throws, modelled as `none`) is silently treated as the
empty store by `readSchedules` — it is not a fatal startup error. -/
theorem C3_counterexample : readSchedules none = [] := rfl

/-- Claim C3 as amended: a malformed session store is a fatal startup
error (`loadSessions` propagates the parse failure instead of
recovering), while a malformed schedule store is silently treated as
empty by `readSchedules` (its `try/catch` returns `[]`; `loadSchedules`
never parses at startup). -/
theorem C3_store_loading_amended :
    loadSessions true none = Except.error "SyntaxError: malformed sessions store" ∧
    (∀ m, loadSessions true (some m) = Except.ok m) ∧
    (∀ stored, readSchedules stored = stored.getD []) := by
  refine ⟨rfl, fun m => rfl, fun stored => ?_⟩
  cases stored with
  | none => rfl
  | some s => rfl

/-! ## Claim C5: schedule creation -/

/-- Claim C5: for a cron expression the external cron library accepts
(returning its next UTC occurrence `nr`), the create command appends
exactly one job with `enabled := true`, id `max(existing) + 1` (hence
distinct from every stored id), and `nextRun` exactly the occurrence
the library computed; the reply reports the id, cron, prompt and that
next-run time. -/
theorem C5_scheduleCreate_spec (cronNext : String → Option String)
    (schedules : List Schedule) (cron prompt spaceName nr : String)
    (hc : cronNext cron = some nr) :
    handleScheduleCommand cronNext (.create cron prompt) spaceName schedules =
      ("Schedule #" ++ toString (maxId schedules + 1) ++ " created.\nCron: `" ++
          cron ++ "`\nPrompt: " ++ prompt ++ "\nNext run: " ++ nr,
        schedules ++ [⟨maxId schedules + 1, cron, prompt, spaceName, true, nr⟩]) ∧
    (∀ s ∈ schedules, s.id ≠ maxId schedules + 1) := by
  constructor
  · simp only [handleScheduleCommand, hc, nextId_eq]
  · intro s hs heq
    have := id_le_maxId schedules s hs
    omega

/-- Witness for C5: creating a job in a store holding ids 1 and 4
assigns id 5 and appends exactly one enabled job. -/
theorem C5_scheduleCreate_witness :
    handleScheduleCommand (fun _ => some "2026-01-01T09:00:00.000Z")
        (.create "0 9 * * *" "standup") "spaces/A"
        [⟨1, "a", "p", "spaces/A", true, "t"⟩, ⟨4, "b", "q", "spaces/B", true, "t"⟩] =
      ("Schedule #" ++ toString (5 : Nat) ++ " created.\nCron: `" ++ "0 9 * * *" ++
          "`\nPrompt: " ++ "standup" ++ "\nNext run: " ++ "2026-01-01T09:00:00.000Z",
        [⟨1, "a", "p", "spaces/A", true, "t"⟩, ⟨4, "b", "q", "spaces/B", true, "t"⟩] ++
          [⟨5, "0 9 * * *", "standup", "spaces/A", true, "2026-01-01T09:00:00.000Z"⟩]) ∧
    (∀ s ∈ [⟨1, "a", "p", "spaces/A", true, "t"⟩,
        (⟨4, "b", "q", "spaces/B", true, "t"⟩ : Schedule)], s.id ≠ 5) :=
  C5_scheduleCreate_spec (fun _ => some "2026-01-01T09:00:00.000Z")
    [⟨1, "a", "p", "spaces/A", true, "t"⟩, ⟨4, "b", "q", "spaces/B", true, "t"⟩]
    "0 9 * * *" "standup" "spaces/A" "2026-01-01T09:00:00.000Z" rfl

/-! ## Claim C8: unschedule scoping -/

/-- Claim C8: `/unschedule id` removes a job iff one with that id and
the requesting conversation exists (reporting not-found otherwise, with
the store unchanged); and after `/schedule` followed by `/unschedule`
of the newly assigned id in the same conversation, the store is back to
the original one, so the `/schedules` listing for that conversation
contains no job with that id. -/
theorem C8_unschedule_scoped (cronNext : String → Option String)
    (schedules : List Schedule) (id : Nat) (spaceName : String) :
    ((¬ ∃ s ∈ schedules, s.id = id ∧ s.spaceName = spaceName) →
      handleScheduleCommand cronNext (.unschedule id) spaceName schedules =
        ("Schedule #" ++ toString id ++ " not found in this space.", schedules)) ∧
    ((∃ s ∈ schedules, s.id = id ∧ s.spaceName = spaceName) →
      ∃ pre s post, schedules = pre ++ s :: post ∧ s.id = id ∧
        s.spaceName = spaceName ∧
        (∀ y ∈ pre, ¬(y.id = id ∧ y.spaceName = spaceName)) ∧
        handleScheduleCommand cronNext (.unschedule id) spaceName schedules =
          ("Schedule #" ++ toString id ++ " deleted.", pre ++ post)) ∧
    (∀ cron prompt nr, cronNext cron = some nr →
      (handleScheduleCommand cronNext (.unschedule (maxId schedules + 1)) spaceName
          (handleScheduleCommand cronNext (.create cron prompt) spaceName
            schedules).2).2 = schedules ∧
      ∀ j ∈ schedules.filter (fun s => s.spaceName == spaceName && s.enabled),
        j.id ≠ maxId schedules + 1) := by
  refine ⟨?_, ?_, ?_⟩
  · intro hno
    have hfind : schedules.findIdx?
        (fun s => s.id == id && s.spaceName == spaceName) = none := by
      rw [List.findIdx?_eq_none_iff]
      intro y hy
      rw [Bool.and_eq_false_iff]
      by_cases h1 : y.id = id
      · by_cases h2 : y.spaceName = spaceName
        · exact absurd ⟨y, hy, h1, h2⟩ hno
        · exact Or.inr (by simp [h2])
      · exact Or.inl (by simp [h1])
    simp only [handleScheduleCommand, hfind]
  · intro hyes
    have hfind : ∃ idx, schedules.findIdx?
        (fun s => s.id == id && s.spaceName == spaceName) = some idx := by
      cases hf : schedules.findIdx? (fun s => s.id == id && s.spaceName == spaceName) with
      | some idx => exact ⟨idx, rfl⟩
      | none =>
        obtain ⟨s, hs, h1, h2⟩ := hyes
        have := List.findIdx?_eq_none_iff.mp hf s hs
        simp [h1, h2] at this
    obtain ⟨idx, hfind⟩ := hfind
    obtain ⟨pre, s, post, hsplit, hlen, hps, hpre, herase⟩ :=
      findIdx?_some_split schedules idx hfind
    simp only [Bool.and_eq_true, beq_iff_eq] at hps
    refine ⟨pre, s, post, hsplit, hps.1, hps.2, ?_, ?_⟩
    · intro y hy hc
      have := hpre y hy
      simp [hc.1, hc.2] at this
    · simp only [handleScheduleCommand, hfind, herase]
  · intro cron prompt nr hc
    have hstore : (handleScheduleCommand cronNext (.create cron prompt)
        spaceName schedules).2 =
        schedules ++ [⟨maxId schedules + 1, cron, prompt, spaceName, true, nr⟩] := by
      simp only [handleScheduleCommand, hc, nextId_eq]
    have hnotp : ∀ y ∈ schedules,
        ¬ ((fun s => s.id == maxId schedules + 1 && s.spaceName == spaceName) y
          = true) := by
      intro y hy hcp
      simp only [Bool.and_eq_true, beq_iff_eq] at hcp
      have := id_le_maxId schedules y hy
      omega
    have hpx : (fun s => s.id == maxId schedules + 1 && s.spaceName == spaceName)
        (⟨maxId schedules + 1, cron, prompt, spaceName, true, nr⟩ : Schedule)
        = true := by simp
    have hfind := findIdx?_append_singleton schedules
      (⟨maxId schedules + 1, cron, prompt, spaceName, true, nr⟩ : Schedule)
      hnotp hpx
    constructor
    · rw [hstore]
      simp only [handleScheduleCommand, hfind, eraseIdx_append_singleton]
    · intro j hj heq
      have hmem : j ∈ schedules := List.mem_of_mem_filter hj
      have := id_le_maxId schedules j hmem
      omega

/-- Witness for C8: in a one-job store, scheduling assigns id 2 and
unscheduling id 2 from the same conversation restores the original
store, whose listing therefore contains no job with id 2. -/
theorem C8_unschedule_witness :
    (handleScheduleCommand (fun _ => some "T")
        (.unschedule (maxId [(⟨1, "c", "p", "spaces/A", true, "t"⟩ : Schedule)] + 1))
        "spaces/A"
        (handleScheduleCommand (fun _ => some "T") (.create "0 * * * *" "ping")
          "spaces/A" [(⟨1, "c", "p", "spaces/A", true, "t"⟩ : Schedule)]).2).2 =
      [(⟨1, "c", "p", "spaces/A", true, "t"⟩ : Schedule)] ∧
    ∀ j ∈ [(⟨1, "c", "p", "spaces/A", true, "t"⟩ : Schedule)].filter
        (fun s => s.spaceName == "spaces/A" && s.enabled),
      j.id ≠ maxId [(⟨1, "c", "p", "spaces/A", true, "t"⟩ : Schedule)] + 1 :=
  (C8_unschedule_scoped (fun _ => some "T")
      [(⟨1, "c", "p", "spaces/A", true, "t"⟩ : Schedule)] 2 "spaces/A").2.2
    "0 * * * *" "ping" "T" rfl

/-! ### Message chunking (`splitMessage`) -/

/-- Index of the last newline at or before position `upTo`
(JavaScript `remaining.lastIndexOf("\n", maxLen)`); `none` models the
return value `-1`. -/
def lastNewlineLe (l : List Char) (upTo : Nat) : Option Nat :=
  match (l.take (upTo + 1)).reverse.findIdx? (fun c => c = '\n') with
  | none => none
  | some r => some ((l.take (upTo + 1)).length - 1 - r)

/-- Removal of one leading newline from the tail after a split
(`.replace(/^\n/, "")`). -/
def dropLeadNl (l : List Char) : List Char :=
  match l with
  | [] => l
  | d :: t => if d = '\n' then t else l

/-- The split position of one loop iteration: the last newline at or
before the cap, with a hard cut at the cap when the found index is at
most zero (`if (splitAt <= 0) splitAt = maxLen`). -/
def splitPoint (maxLen : Nat) (remaining : List Char) : Nat :=
  match lastNewlineLe remaining maxLen with
  | none => maxLen
  | some 0 => maxLen
  | some (s + 1) => s + 1

/-- The chunking loop of the source.  `fuel` bounds the iteration
count; with a positive cap each iteration removes at least one
character, so `text.length + 1` iterations always suffice. -/
def splitGo (maxLen : Nat) : Nat → List Char → List (List Char)
  | 0, _ => []
  | fuel + 1, remaining =>
    if remaining.length = 0 then []
    else if remaining.length ≤ maxLen then [remaining]
    else
      remaining.take (splitPoint maxLen remaining) ::
        splitGo maxLen fuel
          (dropLeadNl (remaining.drop (splitPoint maxLen remaining)))

/-- Function `splitMessage` from the source, on character lists. -/
def splitMessage (text : List Char) (maxLen : Nat) : List (List Char) :=
  if text.length ≤ maxLen then [text]
  else splitGo maxLen (text.length + 1) text

/-- Rejoin of chunks with one separator after each chunk (the newline
consumed at that split point, or nothing). -/
def rejoin : List (List Char) → List (List Char) → List Char
  | [], _ => []
  | c :: cs, [] => c ++ rejoin cs []
  | c :: cs, s :: ss => c ++ (s ++ rejoin cs ss)

theorem lastNewlineLe_le (l : List Char) (upTo : Nat) (s : Nat)
    (h : lastNewlineLe l upTo = some s) : s ≤ upTo := by
  unfold lastNewlineLe at h
  cases hf : (l.take (upTo + 1)).reverse.findIdx? (fun c => c = '\n') with
  | none => rw [hf] at h; exact absurd h (by simp)
  | some r =>
    rw [hf] at h
    injection h with h
    have hlen : (l.take (upTo + 1)).length ≤ upTo + 1 := by
      rw [List.length_take]
      omega
    omega

theorem splitPoint_bounds (maxLen : Nat) (remaining : List Char)
    (hm : 1 ≤ maxLen) :
    1 ≤ splitPoint maxLen remaining ∧ splitPoint maxLen remaining ≤ maxLen := by
  unfold splitPoint
  cases h : lastNewlineLe remaining maxLen with
  | none =>
    exact ⟨hm, Nat.le_refl maxLen⟩
  | some s =>
    have hle := lastNewlineLe_le remaining maxLen s h
    cases s with
    | zero => exact ⟨hm, Nat.le_refl maxLen⟩
    | succ t => exact ⟨Nat.succ_le_succ (Nat.zero_le t), hle⟩

theorem dropLeadNl_length_le (l : List Char) :
    (dropLeadNl l).length ≤ l.length := by
  cases l with
  | nil => exact Nat.le_refl _
  | cons d t =>
    show (if d = '\n' then t else d :: t).length ≤ (d :: t).length
    by_cases hd : d = '\n'
    · rw [if_pos hd]
      simp
    · rw [if_neg hd]

theorem take_sep_dropLeadNl (rem : List Char) (A : Nat) :
    ∃ sep, (sep = ['\n'] ∨ sep = []) ∧
      rem.take A ++ (sep ++ dropLeadNl (rem.drop A)) = rem := by
  cases hd : rem.drop A with
  | nil =>
    refine ⟨[], Or.inr rfl, ?_⟩
    conv_rhs => rw [← List.take_append_drop A rem]
    rw [hd]
    rfl
  | cons d ds =>
    by_cases hdn : d = '\n'
    · refine ⟨['\n'], Or.inl rfl, ?_⟩
      conv_rhs => rw [← List.take_append_drop A rem]
      rw [hd, hdn]
      show rem.take A ++ ('\n' :: dropLeadNl ('\n' :: ds)) = rem.take A ++ '\n' :: ds
      rw [show dropLeadNl ('\n' :: ds) = ds from by simp [dropLeadNl]]
    · refine ⟨[], Or.inr rfl, ?_⟩
      conv_rhs => rw [← List.take_append_drop A rem]
      rw [hd]
      show rem.take A ++ dropLeadNl (d :: ds) = rem.take A ++ d :: ds
      rw [show dropLeadNl (d :: ds) = d :: ds from by simp [dropLeadNl, hdn]]

theorem splitGo_spec (maxLen : Nat) (hm : 1 ≤ maxLen) :
    ∀ (fuel : Nat) (remaining : List Char), remaining.length < fuel →
      (∀ c ∈ splitGo maxLen fuel remaining, c.length ≤ maxLen) ∧
      ∃ seps, seps.length = (splitGo maxLen fuel remaining).length ∧
        (∀ s ∈ seps, s = ['\n'] ∨ s = []) ∧
        rejoin (splitGo maxLen fuel remaining) seps = remaining := by
  intro fuel
  induction fuel with
  | zero => intro remaining h; omega
  | succ fuel ih =>
    intro remaining hlt
    cases remaining with
    | nil =>
      have hz : splitGo maxLen (fuel + 1) ([] : List Char) = [] := rfl
      refine ⟨?_, [], ?_, ?_, ?_⟩
      · intro c hc
        rw [hz] at hc
        exact absurd hc (List.not_mem_nil c)
      · rw [hz]
      · intro s hs
        exact absurd hs (List.not_mem_nil s)
      · rw [hz]
        rfl
    | cons c0 rest =>
      rw [splitGo, if_neg (by simp : ¬ (c0 :: rest).length = 0)]
      by_cases hle : (c0 :: rest).length ≤ maxLen
      · rw [if_pos hle]
        refine ⟨?_, [[]], rfl, ?_, ?_⟩
        · intro c hc
          rw [List.mem_singleton.mp hc]
          exact hle
        · intro s hs
          exact Or.inr (List.mem_singleton.mp hs)
        · simp [rejoin]
      · rw [if_neg hle]
        obtain ⟨hA1, hA2⟩ := splitPoint_bounds maxLen (c0 :: rest) hm
        have hrest : (dropLeadNl ((c0 :: rest).drop
            (splitPoint maxLen (c0 :: rest)))).length < fuel := by
          have h1 := dropLeadNl_length_le ((c0 :: rest).drop
            (splitPoint maxLen (c0 :: rest)))
          have h2 : ((c0 :: rest).drop (splitPoint maxLen (c0 :: rest))).length =
              (c0 :: rest).length - splitPoint maxLen (c0 :: rest) := by
            rw [List.length_drop]
          simp only [List.length_cons] at *
          omega
        obtain ⟨ihb, seps', hslen, hsval, hsrejoin⟩ := ih _ hrest
        obtain ⟨sep, hsepval, hseprejoin⟩ :=
          take_sep_dropLeadNl (c0 :: rest) (splitPoint maxLen (c0 :: rest))
        refine ⟨?_, sep :: seps', ?_, ?_, ?_⟩
        · intro c hc
          rcases List.mem_cons.mp hc with hc | hc
          · subst hc
            rw [List.length_take]
            simp only [List.length_cons]
            omega
          · exact ihb c hc
        · simp only [List.length_cons, hslen]
        · intro s hs
          rcases List.mem_cons.mp hs with hs | hs
          · subst hs; exact hsepval
          · exact hsval s hs
        · rw [rejoin, hsrejoin, hseprejoin]

/-! ## Claim C4: message chunking round-trip -/

/-- Claim C4: with a positive cap `maxLen`, every chunk produced by
`splitMessage` has length at most `maxLen`, and rejoining the chunks —
re-inserting a newline at exactly those split points where one was
consumed — reconstructs the original text. -/
theorem C4_splitMessage_spec (text : List Char) (maxLen : Nat)
    (hm : 1 ≤ maxLen) :
    (∀ c ∈ splitMessage text maxLen, c.length ≤ maxLen) ∧
    ∃ seps, seps.length = (splitMessage text maxLen).length ∧
      (∀ s ∈ seps, s = ['\n'] ∨ s = []) ∧
      rejoin (splitMessage text maxLen) seps = text := by
  unfold splitMessage
  by_cases h : text.length ≤ maxLen
  · rw [if_pos h]
    refine ⟨?_, [[]], rfl, ?_, ?_⟩
    · intro c hc
      rw [List.mem_singleton.mp hc]
      exact h
    · intro s hs
      exact Or.inr (List.mem_singleton.mp hs)
    · simp [rejoin]
  · rw [if_neg h]
    exact splitGo_spec maxLen hm (text.length + 1) text (by omega)

/-- Witness for C4: the text `ab⏎cdef` with cap 4 splits at the
newline into `ab` and `cdef`, both within the cap, and rejoins to the
original. -/
theorem C4_splitMessage_witness :
    (∀ c ∈ splitMessage "ab\ncdef".toList 4, c.length ≤ 4) ∧
    ∃ seps, seps.length = (splitMessage "ab\ncdef".toList 4).length ∧
      (∀ s ∈ seps, s = ['\n'] ∨ s = []) ∧
      rejoin (splitMessage "ab\ncdef".toList 4) seps = "ab\ncdef".toList :=
  C4_splitMessage_spec "ab\ncdef".toList 4 (by decide)

/-! ### AI bridge (`callClaude`) over the session store -/

/-- The in-memory session map of `sessions.ts` (conversation identity
to opaque resume token). -/
abbrev SessionStore := String → Option String

/-- Function `setSession` of the session store. -/
def setSession (st : SessionStore) (k v : String) : SessionStore :=
  fun x => if x = k then some v else st x

/-- Function `deleteSession` of the session store. -/
def deleteSession (st : SessionStore) (k : String) : SessionStore :=
  fun x => if x = k then none else st x

/-- Step `if (resultSessionId) setSession(spaceName, resultSessionId)`: the
token from the result event is stored only when truthy. -/
def storeResult (st : SessionStore) (k : String) (sid : Option String) :
    SessionStore :=
  match sid with
  | some v => if v = "" then st else setSession st k v
  | none => st

/-- Function `callClaude` from the source, with the spawned process as the
external collaborator `proc`: given the resume token passed on the
command line (or `none` for a fresh invocation), `proc` returns the
final result event's text and session id, or `none` when the process
exits without producing a result (which is how a stale/invalid resume
token manifests).  Returns the result with the updated store, plus the
trace of resume tokens passed to the process, in order. -/
def callClaude (proc : Option String → Option (String × Option String))
    (space : String) (st : SessionStore) :
    Option (String × SessionStore) × List (Option String) :=
  match proc (st space) with
  | some (text, sid) => (some (text, storeResult st space sid), [st space])
  | none =>
    match h : st space with
    | some _ =>
      let p := callClaude proc space (deleteSession st space)
      (p.1, st space :: p.2)
    | none => (none, [st space])
termination_by (if (st space).isSome then 1 else 0)
decreasing_by simp [deleteSession, h]

/-! ## Claim C7: stale-session recovery -/

/-- Claim C7: when the stored resume token for a conversation is
reported invalid by the process (no result), `callClaude` deletes the
stored session and retries exactly once without a resume token: the
process is invoked exactly twice, first with the stale token and then
with none (the invalid token is never reused), the retry answer is
returned with the freshly stored session, and an error surfaces only
when the token-free retry also produces no result. -/
theorem C7_callClaude_stale_retry
    (proc : Option String → Option (String × Option String))
    (st : SessionStore) (space tok : String)
    (hstale : st space = some tok)
    (hfail : proc (some tok) = none) :
    (callClaude proc space st).2 = [some tok, none] ∧
    (∀ text sid, proc none = some (text, sid) →
      (callClaude proc space st).1 =
        some (text, storeResult (deleteSession st space) space sid)) ∧
    (proc none = none → (callClaude proc space st).1 = none) := by
  have hdel : deleteSession st space space = none := by
    unfold deleteSession
    rw [if_pos rfl]
  have hmain : callClaude proc space st =
      ((callClaude proc space (deleteSession st space)).1,
        some tok :: (callClaude proc space (deleteSession st space)).2) := by
    rw [callClaude]
    rw [hstale, hfail]
  have hinner1 : ∀ text sid, proc none = some (text, sid) →
      callClaude proc space (deleteSession st space) =
        (some (text, storeResult (deleteSession st space) space sid),
          [(none : Option String)]) := by
    intro text sid hp
    rw [callClaude, hdel, hp]
  have hinner2 : proc none = none →
      callClaude proc space (deleteSession st space) =
        (none, [(none : Option String)]) := by
    intro hp
    rw [callClaude, hdel, hp]
  refine ⟨?_, ?_, ?_⟩
  · rw [hmain]
    cases hp : proc none with
    | some r =>
      rw [hinner1 r.1 r.2 (by rw [hp])]
    | none =>
      rw [hinner2 hp]
  · intro text sid hp
    rw [hmain, hinner1 text sid hp]
  · intro hp
    rw [hmain, hinner2 hp]

/-- Witness for C7: a store holding the stale token `stale` for the
conversation, a process that fails on that token and succeeds without
one. -/
theorem C7_callClaude_witness :
    (callClaude
        (fun o => match o with
          | some _ => none
          | none => some ("fresh answer", some "s2"))
        "spaces/A"
        (fun k => if k = "spaces/A" then some "stale" else none)).2 =
      [some "stale", none] ∧
    (∀ text sid,
      (fun (o : Option String) => match o with
        | some _ => none
        | none => some ("fresh answer", some "s2")) none = some (text, sid) →
      (callClaude
        (fun o => match o with
          | some _ => none
          | none => some ("fresh answer", some "s2"))
        "spaces/A"
        (fun k => if k = "spaces/A" then some "stale" else none)).1 =
        some (text, storeResult
          (deleteSession (fun k => if k = "spaces/A" then some "stale" else none)
            "spaces/A") "spaces/A" sid)) ∧
    ((fun (o : Option String) => match o with
        | some _ => none
        | none => some ("fresh answer", some "s2")) none = none →
      (callClaude
        (fun o => match o with
          | some _ => none
          | none => some ("fresh answer", some "s2"))
        "spaces/A"
        (fun k => if k = "spaces/A" then some "stale" else none)).1 = none) :=
  C7_callClaude_stale_retry
    (fun o => match o with
      | some _ => none
      | none => some ("fresh answer", some "s2"))
    (fun k => if k = "spaces/A" then some "stale" else none)
    "spaces/A" "stale" (by decide) rfl

end Claw
